import Mathlib

/-!
# Verification of the backtrader.plus computation engine

Shallow embedding, in Lean 4 over exact rationals, of the core data
structures and algorithms of the C++ backtesting engine: line buffers
(`linebuffer.hpp`), the SIMD kernels (`simd.hpp`), the SMA indicator
(`indicators/sma.hpp`), broker order matching, slippage, position and
trade accounting (`broker.cpp`, `broker.hpp`, `order.hpp`), the
parameter store (`params.hpp`) and the optimization grid
(`threadpool.hpp`, `cerebro.cpp`).

Modelling conventions:
* `Value` (C++ `double`) is modelled as `ℚ`; the distinguished NaN
  sentinel is modelled by `Option ℚ` with `none` standing for NaN
  (or for a cell the C++ code leaves unwritten).
* A C++ function that can throw is modelled with `Except String`;
  `Except.error` marks the thrown exception.
* Machine `Size`/`Index` are modelled as `ℕ`/`ℤ`; the sizes involved
  are far from overflow in every statement proved here.
-/

/- `Batteries` marks the `Rat` arithmetic operations `@[irreducible]`;
restore unfolding so that concrete rational computations can be settled
by `decide`. This affects only definitional transparency, not the
(kernel-checked) logic. -/
set_option allowUnsafeReducibility true
attribute [semireducible] Rat.add Rat.sub Rat.mul Rat.inv Rat.div Rat.ofScientific

set_option maxRecDepth 8000

/- Decidable equality on `Except`, so that concrete facts about modelled
C++ exceptions can be settled by `decide`. -/
deriving instance DecidableEq for Except

namespace BTPlus

/-! ## Line buffers (`linebuffer.hpp`)

`UnboundedStorage` keeps all pushed values in a vector together with a
cursor `pos`; a read at signed offset `idx` resolves to the absolute
position `pos - idx`.  The const overload of `at` returns NaN when the
absolute position is out of range, the mutable overload throws
`std::out_of_range`. -/

structure UnboundedStorage where
  data : List ℚ
  pos : ℤ
deriving Repr, DecidableEq

namespace UnboundedStorage

def empty : UnboundedStorage := ⟨[], 0⟩

def push (s : UnboundedStorage) (v : ℚ) : UnboundedStorage :=
  { s with data := s.data ++ [v] }

/-- Embedding of `Value at(Index) const`: `actual = pos_ - idx`; out of range returns NaN. -/
def atConst (s : UnboundedStorage) (idx : ℤ) : Option ℚ :=
  let actual : ℤ := s.pos - idx
  if 0 ≤ actual ∧ actual < (s.data.length : ℤ) then
    some (s.data.getD actual.toNat 0)
  else
    none

/-- Embedding of `Value& at(Index)`: same position computation, but throws on out of range. -/
def atMut (s : UnboundedStorage) (idx : ℤ) : Except String ℚ :=
  let actual : ℤ := s.pos - idx
  if 0 ≤ actual ∧ actual < (s.data.length : ℤ) then
    Except.ok (s.data.getD actual.toNat 0)
  else
    Except.error "LineBuffer index out of range"

def size (s : UnboundedStorage) : ℕ := s.data.length

def length (s : UnboundedStorage) : ℕ := s.data.length

/-- Embedding of `advance()` moves the cursor forward, clamped at `size - 1`. -/
def advance (s : UnboundedStorage) : UnboundedStorage :=
  if s.pos < (s.data.length : ℤ) - 1 then { s with pos := s.pos + 1 } else s

def rewind (s : UnboundedStorage) : UnboundedStorage :=
  if 0 < s.pos then { s with pos := s.pos - 1 } else s

def home (s : UnboundedStorage) : UnboundedStorage := { s with pos := 0 }

end UnboundedStorage

/-! `QBufferStorage` is the bounded ring variant: `push_back` pops the
front once `maxlen` elements are held, and `total_pushed_` counts every
push.  Crucially, both overloads of `at` resolve offset `idx` to
`data_.size() - 1 - idx`, i.e. relative to the tail of the retained
window — the cursor `pos_` is *not* consulted by reads. -/

structure QBufferStorage where
  data : List ℚ
  maxlen : ℕ
  pos : ℤ
  totalPushed : ℕ
deriving Repr, DecidableEq

namespace QBufferStorage

def empty (maxlen : ℕ) : QBufferStorage := ⟨[], maxlen, 0, 0⟩

/-- Embedding of `push_back`: pop the oldest element when full, then append. -/
def push (s : QBufferStorage) (v : ℚ) : QBufferStorage :=
  let d := if s.maxlen ≤ s.data.length then s.data.tail else s.data
  { s with data := d ++ [v], totalPushed := s.totalPushed + 1 }

/-- Embedding of `Value at(Index) const`: `actual = data_.size() - 1 - idx`. -/
def atConst (s : QBufferStorage) (idx : ℤ) : Option ℚ :=
  let actual : ℤ := (s.data.length : ℤ) - 1 - idx
  if 0 ≤ actual ∧ actual < (s.data.length : ℤ) then
    some (s.data.getD actual.toNat 0)
  else
    none

/-- Embedding of `Value& at(Index)`: same position computation, throws on out of range. -/
def atMut (s : QBufferStorage) (idx : ℤ) : Except String ℚ :=
  let actual : ℤ := (s.data.length : ℤ) - 1 - idx
  if 0 ≤ actual ∧ actual < (s.data.length : ℤ) then
    Except.ok (s.data.getD actual.toNat 0)
  else
    Except.error "QBuffer index out of range"

def size (s : QBufferStorage) : ℕ := s.data.length

def length (s : QBufferStorage) : ℕ := s.totalPushed

def advance (s : QBufferStorage) : QBufferStorage := { s with pos := s.pos + 1 }

def rewind (s : QBufferStorage) : QBufferStorage :=
  if 0 < s.pos then { s with pos := s.pos - 1 } else s

def home (s : QBufferStorage) : QBufferStorage := { s with pos := 0 }

/-- Push a whole list of values in order. -/
def pushAll (s : QBufferStorage) (vs : List ℚ) : QBufferStorage :=
  vs.foldl push s

end QBufferStorage

/-- A cursor movement on a line buffer (`advance` / `rewind` / `home`). -/
inductive CursorMove where
  | adv
  | rew
  | home
deriving Repr, DecidableEq

def QBufferStorage.applyMove (s : QBufferStorage) : CursorMove → QBufferStorage
  | CursorMove.adv => s.advance
  | CursorMove.rew => s.rewind
  | CursorMove.home => s.home

def QBufferStorage.applyMoves (s : QBufferStorage) (ms : List CursorMove) :
    QBufferStorage :=
  ms.foldl QBufferStorage.applyMove s

/-! ## SIMD kernels (`simd.hpp`)

The kernels write into a caller-provided `result` buffer of the same
length as the input.  We return the buffer contents as
`List (Option ℚ)`: `none` models a cell holding the NaN sentinel or a
cell the kernel returned without writing. -/

namespace simd

/-- The incremental loop of `slidingSum`: given the previous window sum
`s` and the list of `(incoming, outgoing)` pairs
`zip (data.drop window) data`, produce the successive window sums
`s - outgoing + incoming` (one subtraction and one addition per step,
exactly as in the source). -/
def slideSteps (s : ℚ) : List (ℚ × ℚ) → List ℚ
  | [] => []
  | (incoming, outgoing) :: rest =>
      let s1 := s - outgoing + incoming
      s1 :: slideSteps s1 rest

/-- Embedding of `simd::slidingSum`: NaN for the first `window - 1` cells, the first
window's sum at index `window - 1`, then the incremental recurrence. -/
def slidingSum (data : List ℚ) (window : ℕ) : List (Option ℚ) :=
  if data.length = 0 ∨ window = 0 then List.replicate data.length none
  else if data.length < window then List.replicate data.length none
  else
    let s0 := (data.take window).sum
    List.replicate (window - 1) none ++
      some s0 :: (slideSteps s0 ((data.drop window).zip data)).map some

/-- Embedding of `simd::slidingMean`: `slidingSum`, then division of every valid cell
by the window size. -/
def slidingMean (data : List ℚ) (window : ℕ) : List (Option ℚ) :=
  (slidingSum data window).map (fun o => o.map (fun x => x / (window : ℚ)))

/-- The recursive tail of `simd::ema`:
`result[i] = alpha * data[i] + (1 - alpha) * result[i-1]`. -/
def emaGo (alpha : ℚ) (prev : ℚ) : List ℚ → List ℚ
  | [] => []
  | x :: rest =>
      let y := alpha * x + (1 - alpha) * prev
      y :: emaGo alpha y rest

/-- Embedding of `simd::ema`: NaN for the first `period - 1` cells, the SMA of the
first `period` inputs at index `period - 1`, then the exponential
recurrence with `alpha = 2 / (period + 1)`. -/
def ema (data : List ℚ) (period : ℕ) : List (Option ℚ) :=
  if data.length = 0 ∨ period = 0 then List.replicate data.length none
  else if data.length < period then List.replicate data.length none
  else
    let alpha : ℚ := 2 / ((period : ℚ) + 1)
    let seed := (data.take period).sum / (period : ℚ)
    List.replicate (period - 1) none ++
      some seed :: (emaGo alpha seed (data.drop period)).map some

/-- One-step differences `changes[i] = data[i+1] - data[i]`. -/
def changes (data : List ℚ) : List ℚ :=
  List.zipWith (fun next prev => next - prev) data.tail data

/-- Positive parts of the one-step differences. -/
def gains (data : List ℚ) : List ℚ :=
  (changes data).map (fun c => if c > 0 then c else 0)

/-- Negated negative parts of the one-step differences. -/
def losses (data : List ℚ) : List ℚ :=
  (changes data).map (fun c => if c < 0 then -c else 0)

/-- The per-index body of the final loop of `simd::rsi` (for
`period ≤ i < dataLen`), reading the smoothed series at `idx = i - 1`. -/
def rsiCell (avgGain avgLoss : List (Option ℚ)) (period i : ℕ) : Option ℚ :=
  let idx := i - 1
  if idx < period - 1 then none
  else
    match avgGain.getD idx none, avgLoss.getD idx none with
    | some ag, some al =>
        if al = 0 then some 100
        else if ag = 0 then some 0
        else some (100 - 100 / (1 + ag / al))
    | _, _ => none

/-- Embedding of `simd::rsi`: one-step differences split into gains and losses, each
smoothed by `simd::ema` with the same `period`, then
`RSI = 100 - 100 / (1 + gain/loss)` with the 0-loss and 0-gain special
cases; the first `period` cells are NaN. -/
def rsi (data : List ℚ) (period : ℕ) : List (Option ℚ) :=
  if data.length < 2 ∨ period = 0 then List.replicate data.length none
  else
    let avgGain := ema (gains data) period
    let avgLoss := ema (losses data) period
    (List.range data.length).map (fun i =>
      if i < period then none else rsiCell avgGain avgLoss period i)

/-- Modelled from the spec's words for claim comparison only (not from
the source): Wilder smoothing, "equivalent to an EMA with
`alpha = 1/period` after an SMA seed". Identical to `simd.ema` except
for the smoothing coefficient. -/
def wilderSmooth (data : List ℚ) (period : ℕ) : List (Option ℚ) :=
  if data.length = 0 ∨ period = 0 then List.replicate data.length none
  else if data.length < period then List.replicate data.length none
  else
    let alpha : ℚ := 1 / (period : ℚ)
    let seed := (data.take period).sum / (period : ℚ)
    List.replicate (period - 1) none ++
      some seed :: (emaGo alpha seed (data.drop period)).map some

/-- Modelled from the spec's words for claim comparison only: the RSI
computation exactly as the claim describes it, i.e. `simd.rsi` with the
gain/loss series smoothed by Wilder smoothing instead of `simd.ema`. -/
def rsiClaim (data : List ℚ) (period : ℕ) : List (Option ℚ) :=
  if data.length < 2 ∨ period = 0 then List.replicate data.length none
  else
    let avgGain := wilderSmooth (gains data) period
    let avgLoss := wilderSmooth (losses data) period
    (List.range data.length).map (fun i =>
      if i < period then none else rsiCell avgGain avgLoss period i)

end simd

/-! ## The SMA indicator (`indicators/sma.hpp`)

`SMA::next()` sums `dataValue(0) .. dataValue(period-1)` and pushes
`sum / period`.  `Indicator::dataValue` reads the input line through
the non-const `LineBuffer::operator[]`, i.e. the mutable, *throwing*
`IBufferStorage::at` overload (`dataValue` is a const method, but its
member is a pointer to a non-const `LineBuffer`, so the const `at`
overload is never selected on this path).  An out-of-range read —
the cursor sitting before bar `period - 1` — therefore throws
`std::out_of_range` instead of producing a NaN value, and a warm-up
`next()` call stores nothing.  `SMA::once(start, end)` calls
`simd::slidingMean` over the raw input array into a temporary buffer
and pushes only the cells from `period - 1` on (the NaN prefix is
trimmed). -/

namespace SMA

/-- Embedding of the read-and-sum loop of `SMA::next()` over the input
line `s` (cursor at `s.pos`): the partial sum of
`dataValue(0) + … + dataValue(i-1)`, every read going through the
throwing mutable `at`; the first out-of-range read aborts the call
with `std::out_of_range`. -/
def nextSum (s : UnboundedStorage) : ℕ → Except String ℚ
  | 0 => Except.ok 0
  | i + 1 =>
      match nextSum s i, s.atMut (i : ℤ) with
      | Except.ok acc, Except.ok v => Except.ok (acc + v)
      | Except.error e, _ => Except.error e
      | Except.ok _, Except.error e => Except.error e

/-- The outcome of one `SMA::next()` call on the input line `data` with
the cursor on bar `p`: `Except.ok` the pushed value, or the propagated
`std::out_of_range` of a warm-up read. -/
def nextOutput (data : List ℚ) (period : ℕ) (p : ℤ) : Except String ℚ :=
  (nextSum ⟨data, p⟩ period).map (fun sum => sum / (period : ℚ))

/-- The output line produced by one `next()` call per bar: a successful
call pushes its value, a throwing call pushes nothing. -/
def nextLine (data : List ℚ) (period : ℕ) : List (Option ℚ) :=
  (List.range data.length).filterMap (fun p =>
    match nextOutput data period (p : ℤ) with
    | Except.ok v => some (some v)
    | Except.error _ => none)

/-- The bulk output sequence of `SMA::once`, i.e. the `tempOutput`
buffer filled by `simd::slidingMean` (cell `p` is the output for
bar `p`). -/
def onceSeq (data : List ℚ) (period : ℕ) : List (Option ℚ) :=
  simd.slidingMean data period

/-- The values `SMA::once` pushes to the output line: the `tempOutput`
cells from `period - 1` on (the NaN prefix is trimmed). -/
def onceLine (data : List ℚ) (period : ℕ) : List (Option ℚ) :=
  (simd.slidingMean data period).drop (period - 1)

/-- The close series of scenario S1. -/
def s1Close : List ℚ :=
  [100, 101, 102, 101, 103, 104.5, 105, 104, 106, 107.5,
   108, 107, 109, 110.5, 111, 110, 112, 113.5, 114, 113]

end SMA

/-! ## Broker order matching and accounting (`broker.cpp`, `broker.hpp`,
`order.hpp`) -/

/-- One OHLCV bar as the broker reads it (`feed->open()[0]` etc.). -/
structure Bar where
  open_ : ℚ
  high : ℚ
  low : ℚ
  close : ℚ
  volume : ℚ
deriving Repr, DecidableEq

/-- Embedding of `SlippageConfig` (`broker.hpp`): percentage and fixed slippage. -/
structure SlippageConfig where
  perc : ℚ
  fixed : ℚ
deriving Repr, DecidableEq

/-- Embedding of `Broker::applySlippage`: shift the price against the trader by
`perc * price` when `perc > 0`, else by `fixed` when `fixed > 0`. -/
def applySlippage (price : ℚ) (isBuy : Bool) (slip : SlippageConfig) : ℚ :=
  let slipAmount : ℚ :=
    if slip.perc > 0 then price * slip.perc
    else if slip.fixed > 0 then slip.fixed
    else 0
  if isBuy then price + slipAmount else price - slipAmount

/-- The `OrderType::Limit` case of `Broker::tryExecute`: trigger test and
trigger-price choice against the bar, then slippage.  Returns `none`
when the order does not execute on this bar. -/
def tryExecuteLimit (isBuy : Bool) (limit : ℚ) (bar : Bar)
    (slip : SlippageConfig) : Option ℚ :=
  if isBuy then
    if bar.low ≤ limit then
      some (applySlippage (if bar.open_ < limit then bar.open_ else limit)
        true slip)
    else none
  else
    if bar.high ≥ limit then
      some (applySlippage (if bar.open_ > limit then bar.open_ else limit)
        false slip)
    else none

/-- The broker's internal per-data position record
(`Broker::PositionInfo`). -/
structure PositionInfo where
  size : ℚ
  price : ℚ
deriving Repr, DecidableEq

/-- The position-update block of `Broker::executeOrder` (`broker.cpp`),
with the fill size `sz` a nonnegative machine `Size`. -/
def executeOrderPosition (pos : PositionInfo) (isBuy : Bool) (sz : ℕ)
    (price : ℚ) : PositionInfo :=
  let size : ℚ := (sz : ℚ)
  if isBuy then
    if pos.size ≥ 0 then
      let total := pos.price * pos.size + price * size
      let newSize := pos.size + size
      ⟨newSize, if newSize > 0 then total / newSize else 0⟩
    else
      let newSize := pos.size + size
      ⟨newSize, if newSize ≥ 0 then price else pos.price⟩
  else
    if pos.size ≤ 0 then
      let total := pos.price * |pos.size| + price * size
      let newSize := pos.size - size
      ⟨newSize, if newSize < 0 then total / |newSize| else 0⟩
    else
      let newSize := pos.size - size
      ⟨newSize,
        if newSize ≤ 0 then (if newSize < 0 then price else 0) else pos.price⟩

/-- The trade-record block of `Broker::executeOrder`: when a fill takes
a non-flat position to flat, the recorded trade's `(pnl, pnlComm)` —
computed from the exec price, the *post-update* position price, the
pre-update size, and this fill's commission.  `none` when no closing
trade is recorded. -/
def executeOrderClosePnl (pos : PositionInfo) (isBuy : Bool) (sz : ℕ)
    (price : ℚ) (comm : ℚ) : Option (ℚ × ℚ) :=
  let oldSize := pos.size
  let newPos := executeOrderPosition pos isBuy sz price
  if oldSize ≠ 0 ∧ newPos.size = 0 then
    let pnl0 := (price - newPos.price) * |oldSize|
    let pnl := if oldSize < 0 then -pnl0 else pnl0
    some (pnl, pnl - comm)
  else none

/-- Embedding of `Position` (`order.hpp`): the standalone position-tracking class. -/
structure Position where
  size : ℚ
  price : ℚ
deriving Repr, DecidableEq

/-- Embedding of `Position::update` (`order.hpp`): open from flat, same-side
volume-weighted add, or reduction with a `1e-10` flat snap. -/
def Position.update (p : Position) (deltaSize execPrice : ℚ) : Position :=
  if p.size = 0 then ⟨deltaSize, execPrice⟩
  else if (p.size > 0 ∧ deltaSize > 0) ∨ (p.size < 0 ∧ deltaSize < 0) then
    let totalValue := p.size * p.price + deltaSize * execPrice
    let newSize := p.size + deltaSize
    ⟨newSize, totalValue / newSize⟩
  else
    let newSize := p.size + deltaSize
    if |newSize| < 1 / 10000000000 then ⟨0, 0⟩ else ⟨newSize, p.price⟩

/-- Embedding of `Trade` (`order.hpp`), restricted to the fields `close` touches. -/
structure TradeRec where
  priceOpen : ℚ
  priceClose : ℚ
  size : ℚ
  pnl : ℚ
  pnlComm : ℚ
  commission : ℚ
  isLong : Bool
  isOpen : Bool
deriving Repr, DecidableEq

/-- Embedding of `Trade::close` (`order.hpp`): accumulate the closing commission, mark
closed, and set `pnl = (exit - entry) * |size|` signed by direction and
`pnlComm = pnl - commission`. -/
def TradeRec.close (t : TradeRec) (closePrice comm : ℚ) : TradeRec :=
  let commission := t.commission + comm
  let pnl :=
    if t.isLong then (closePrice - t.priceOpen) * |t.size|
    else (t.priceOpen - closePrice) * |t.size|
  { t with
    priceClose := closePrice
    commission := commission
    isOpen := false
    pnl := pnl
    pnlComm := pnl - commission }

/-! ## The parameter store (`params.hpp`)

`ParamValue` is `std::variant<bool, int, long, double, std::string,
std::nullptr_t>`; `int` and `long` are distinct alternatives.  A store
maps names to values; `get<T>` extracts the alternative of type `T`,
and `std::get` throws on an alternative mismatch. -/

inductive ParamValue where
  | pBool : Bool → ParamValue
  | pInt : ℤ → ParamValue
  | pLong : ℤ → ParamValue
  | pDouble : ℚ → ParamValue
  | pString : String → ParamValue
  | pNull : ParamValue
deriving Repr, DecidableEq

/-- The alternative (the `T` of `get<T>`) a `ParamValue` holds. -/
inductive ParamTag where
  | tBool
  | tInt
  | tLong
  | tDouble
  | tString
  | tNull
deriving Repr, DecidableEq

def ParamValue.tag : ParamValue → ParamTag
  | .pBool _ => .tBool
  | .pInt _ => .tInt
  | .pLong _ => .tLong
  | .pDouble _ => .tDouble
  | .pString _ => .tString
  | .pNull => .tNull

/-- A parameter store: the `name → ParamValue` map of `Params`. -/
def ParamStore := List (String × ParamValue)

/-- Embedding of `Params::get<T>(name)` — no default: throws when the key is missing,
and propagates `std::get`'s exception when the stored alternative is not
`T`. -/
def ParamStore.getNoDefault (ps : ParamStore) (name : String)
    (t : ParamTag) : Except String ParamValue :=
  match List.lookup name ps with
  | none => Except.error ("Parameter not found: " ++ name)
  | some v => if v.tag = t then Except.ok v else Except.error "bad variant access"

/-- Embedding of `Params::get<T>(name, defaultValue)`: missing key returns the
default, and a `catch (...)` turns the alternative-mismatch exception
into the default as well. -/
def ParamStore.getWithDefault (ps : ParamStore) (name : String)
    (t : ParamTag) (defaultValue : ParamValue) : ParamValue :=
  match List.lookup name ps with
  | none => defaultValue
  | some v => if v.tag = t then v else defaultValue

/-! ## The optimization grid (`threadpool.hpp`) and `Cerebro::runOptimize`
(`cerebro.cpp`)

`ParameterGrid` stores parameter names and their value lists in two
vectors kept in lockstep by `addParam`; we model the pair of vectors as
one list of `(name, values)` pairs.  `generate()` walks a mixed-radix
odometer over the index vector `indices`, incrementing from the last
(rightmost) parameter with carry. -/

def ParamGrid := List (String × List ParamValue)

/-- Little-endian odometer increment: `++i; if i < k break else i = 0`,
applied from the fastest digit. -/
def incLE : List ℕ → List ℕ → List ℕ
  | [], _ => []
  | i :: is, [] => (i + 1) :: is
  | i :: is, k :: ks => if i + 1 < k then (i + 1) :: is else 0 :: incLE is ks

/-- The index-update loop of `ParameterGrid::generate`, which increments
`indices` starting from the *last* parameter: little-endian increment on
the reversed vectors. -/
def odoInc (idx : List ℕ) (sizes : List ℕ) : List ℕ :=
  (incLE idx.reverse sizes.reverse).reverse

/-- The combination `paramSet[name_j] = values_j[indices_j]` read off the
current index vector. -/
def combAt (g : ParamGrid) (idx : List ℕ) : List (String × ParamValue) :=
  List.zipWith (fun nv i => (nv.1, nv.2.getD i ParamValue.pNull)) g idx

/-- The value-list sizes of a grid (`paramValues_[j].size()`), in
declaration order. -/
def gridSizes (g : ParamGrid) : List ℕ := g.map (fun nv => nv.2.length)

/-- Embedding of `ParameterGrid::totalCombinations`: the product of the value-list
sizes. -/
def totalCombinations (g : ParamGrid) : ℕ :=
  (gridSizes g).prod

/-- The main loop of `ParameterGrid::generate`: `totalCombinations`
iterations, each emitting the current combination and stepping the
odometer. -/
def genGo (g : ParamGrid) : ℕ → List ℕ → List (List (String × ParamValue))
  | 0, _ => []
  | n + 1, idx =>
      combAt g idx :: genGo g n (odoInc idx (gridSizes g))

/-- Embedding of `ParameterGrid::generate`: empty result for an empty grid, otherwise
the odometer enumeration starting from the all-zero index vector. -/
def ParamGrid.generate (g : ParamGrid) : List (List (String × ParamValue)) :=
  if g.isEmpty then []
  else genGo g (totalCombinations g) (List.replicate g.length 0)

/-- Modelled from the spec's words for claim comparison only: "the
Cartesian product of the value lists", rightmost parameter varying
fastest. -/
def cartesian : List (String × List ParamValue) → List (List (String × ParamValue))
  | [] => [[]]
  | (n, vs) :: rest =>
      vs.flatMap (fun v => (cartesian rest).map (fun c => (n, v) :: c))

/-- Little-endian mixed-radix digits of `n` for the base list `ss`
(verification helper, not part of the source). -/
def decodeLE : ℕ → List ℕ → List ℕ
  | _, [] => []
  | n, s :: ss => n % s :: decodeLE (n / s) ss

/-- The odometer state reached after `m` steps: the big-endian
mixed-radix digits of `m` (verification helper). -/
def digitsAt (sizes : List ℕ) (m : ℕ) : List ℕ :=
  (decodeLE m sizes.reverse).reverse

/-- Embedding of `OptResult` (`optimizer.hpp`); `sharpeRatio` and `maxDrawdown`
default to NaN (`none`). -/
structure OptResult where
  params : List (String × ParamValue)
  finalValue : ℚ
  pnl : ℚ
  pnlPct : ℚ
  sharpeRatio : Option ℚ
  maxDrawdown : Option ℚ
  totalTrades : ℕ
  winningTrades : ℕ
  winRate : ℚ

/-- Embedding of `OptResult::operator>` lifted to the sort relation used by
`std::sort(results.begin(), results.end(), std::greater<OptResult>())`:
`a` may precede `b` iff `b.pnlPct ≤ a.pnlPct`. -/
def byPnlPctDesc (a b : OptResult) : Prop := b.pnlPct ≤ a.pnlPct

instance : DecidableRel byPnlPctDesc :=
  fun a b => inferInstanceAs (Decidable (b.pnlPct ≤ a.pnlPct))

instance : IsTotal OptResult byPnlPctDesc :=
  ⟨fun a b => le_total b.pnlPct a.pnlPct⟩

instance : IsTrans OptResult byPnlPctDesc :=
  ⟨fun _ _ _ hab hbc => le_trans hbc hab⟩

/-- The final sort of `Cerebro::runOptimize`.  `std::sort` with
`std::greater` yields some permutation ordered descending by `pnlPct`
(ties in unspecified order); we model it with insertion sort, which has
exactly those observable properties. -/
def sortResults (rs : List OptResult) : List OptResult :=
  List.insertionSort byPnlPctDesc rs

/-- Embedding of `Cerebro::runOptimize`, data-flow view: one `OptResult` per generated
parameter combination (the worker body `run`, which always records the
combination and produces the run's metrics), then the descending sort. -/
def runOptimize (g : ParamGrid)
    (run : List (String × ParamValue) → OptResult) : List OptResult :=
  sortResults ((g.generate).map run)

/-! # Lemmas and theorems -/

/-! ## Bounded line buffer lemmas -/

namespace QBufferStorage

lemma applyMove_data (s : QBufferStorage) (m : CursorMove) :
    (s.applyMove m).data = s.data := by
  cases m with
  | adv => rfl
  | rew =>
      show s.rewind.data = s.data
      unfold rewind
      split <;> rfl
  | home => rfl

lemma applyMoves_data (s : QBufferStorage) (ms : List CursorMove) :
    (s.applyMoves ms).data = s.data := by
  induction ms generalizing s with
  | nil => rfl
  | cons m ms ih =>
      simpa [applyMoves, List.foldl_cons, applyMove_data] using
        (applyMove_data s m ▸ ih (s.applyMove m))

lemma pushAll_maxlen (s : QBufferStorage) (vs : List ℚ) :
    (s.pushAll vs).maxlen = s.maxlen := by
  induction vs generalizing s with
  | nil => rfl
  | cons v vs ih => simpa [pushAll, List.foldl_cons] using ih (s.push v)

lemma push_totalPushed (s : QBufferStorage) (v : ℚ) :
    (s.push v).totalPushed = s.totalPushed + 1 := rfl

lemma pushAll_totalPushed (s : QBufferStorage) (vs : List ℚ) :
    (s.pushAll vs).totalPushed = s.totalPushed + vs.length := by
  induction vs generalizing s with
  | nil => simp [pushAll]
  | cons v vs ih =>
      have h := ih (s.push v)
      simp only [pushAll, List.foldl_cons] at h ⊢
      rw [h, push_totalPushed, List.length_cons]
      omega

lemma pushAll_append (s : QBufferStorage) (vs : List ℚ) (v : ℚ) :
    s.pushAll (vs ++ [v]) = (s.pushAll vs).push v := by
  simp [pushAll, List.foldl_append]

/-- After pushing `vs` into an empty bounded buffer of capacity `N ≥ 1`,
the retained window is exactly the last `min (vs.length) N` values. -/
lemma pushAll_empty_data (N : ℕ) (hN : 1 ≤ N) (vs : List ℚ) :
    ((empty N).pushAll vs).data = vs.drop (vs.length - N) := by
  induction vs using List.reverseRecOn with
  | nil => simp [pushAll, empty]
  | append_singleton vs v ih =>
      rw [pushAll_append, push, ih, pushAll_maxlen]
      simp only [empty]
      rcases le_or_lt N vs.length with hle | hlt
      · have hcond : N ≤ (vs.drop (vs.length - N)).length := by
          simp [List.length_drop]
          omega
        rw [if_pos hcond, List.tail_drop]
        have h1 : vs.length - N + 1 = vs.length + 1 - N := by omega
        have h2 : vs.length + 1 - N ≤ vs.length := by omega
        rw [h1, ← List.drop_append_of_le_length h2]
        simp
      · have hcond : ¬ N ≤ (vs.drop (vs.length - N)).length := by
          simp [List.length_drop]
          omega
        rw [if_neg hcond]
        have h0 : vs.length - N = 0 := by omega
        have h0' : vs.length + 1 - N = 0 := by omega
        simp [h0, h0']

end QBufferStorage

/-! ## Claims C3 and C4: line-buffer read paths and bounded retention -/

/-- Claim C3 counterexample: After pushing `[1, 2, 3]` into a bounded
buffer of capacity 5 the cursor sits at 0, so for offset `k = 2` the
claim's position `pos - k = -2` is outside `[0, size)` and the claim
predicts a NaN const read and a failing mutable read; the code instead
resolves the read relative to the tail (`size - 1 - k = 0`) and returns
the stored element `1` on both paths. -/
theorem qbuffer_cursor_read_counterexample :
    (((QBufferStorage.empty 5).pushAll [1, 2, 3]).pos - 2 < 0) ∧
    ((QBufferStorage.empty 5).pushAll [1, 2, 3]).atConst 2 = some 1 ∧
    ((QBufferStorage.empty 5).pushAll [1, 2, 3]).atMut 2 = Except.ok 1 :=
  ⟨by decide, rfl, rfl⟩

/-- Claim C3 amended: For every line buffer and signed offset `k`, the
accessed absolute position is `pos - k` for the unbounded storage but
`size - 1 - k` — independent of the cursor — for the bounded storage;
at an in-range position both the const and the mutable path return the
stored element, and at an out-of-range position the const path returns
NaN while the mutable path throws. -/
theorem linebuffer_read_paths (u : UnboundedStorage) (q : QBufferStorage)
    (k : ℤ) :
    ((0 ≤ u.pos - k ∧ u.pos - k < (u.size : ℤ)) →
      u.atConst k = some (u.data.getD (u.pos - k).toNat 0) ∧
      u.atMut k = Except.ok (u.data.getD (u.pos - k).toNat 0)) ∧
    (¬(0 ≤ u.pos - k ∧ u.pos - k < (u.size : ℤ)) →
      u.atConst k = none ∧
      u.atMut k = Except.error "LineBuffer index out of range") ∧
    ((0 ≤ (q.size : ℤ) - 1 - k ∧ (q.size : ℤ) - 1 - k < (q.size : ℤ)) →
      q.atConst k = some (q.data.getD ((q.size : ℤ) - 1 - k).toNat 0) ∧
      q.atMut k = Except.ok (q.data.getD ((q.size : ℤ) - 1 - k).toNat 0)) ∧
    (¬(0 ≤ (q.size : ℤ) - 1 - k ∧ (q.size : ℤ) - 1 - k < (q.size : ℤ)) →
      q.atConst k = none ∧
      q.atMut k = Except.error "QBuffer index out of range") := by
  unfold UnboundedStorage.atConst UnboundedStorage.atMut
    QBufferStorage.atConst QBufferStorage.atMut UnboundedStorage.size
    QBufferStorage.size
  refine ⟨fun h => ?_, fun h => ?_, fun h => ?_, fun h => ?_⟩ <;>
    simp only [h, if_pos, if_neg, and_self] <;> exact ⟨rfl, rfl⟩

/-- Claim C3 witness: The amended theorem applied to the unbounded buffer
`[7, 8, 9]` with cursor 2 (in range at offset 1, out of range at offset
5) and to the tail-relative bounded buffer holding `[1, 2, 3]`. -/
theorem linebuffer_read_paths_witness :
    (⟨[7, 8, 9], 2⟩ : UnboundedStorage).atConst 1 = some 8 ∧
    (⟨[7, 8, 9], 2⟩ : UnboundedStorage).atMut 5 =
      Except.error "LineBuffer index out of range" ∧
    (⟨[1, 2, 3], 5, 0, 3⟩ : QBufferStorage).atConst 0 = some 3 := by
  have h := linebuffer_read_paths ⟨[7, 8, 9], 2⟩ ⟨[1, 2, 3], 5, 0, 3⟩
  exact ⟨((h 1).1 (by decide)).1, ((h 5).2.1 (by decide)).2,
    ((h 0).2.2.1 (by decide)).1⟩

/-- Claim C4: A bounded buffer of capacity `N ≥ 1` that receives `N + k`
pushes retains exactly the last `N` pushed values, reports `size = N`
and `length = N + k`, and after any sequence of cursor moves a read at
offset 0 still returns the most recently pushed value. -/
theorem qbuffer_bounded_retention (N k : ℕ) (vs : List ℚ)
    (ms : List CursorMove) (hN : 1 ≤ N) (hlen : vs.length = N + k) :
    (((QBufferStorage.empty N).pushAll vs).applyMoves ms).data = vs.drop k ∧
    ((QBufferStorage.empty N).pushAll vs).size = N ∧
    ((QBufferStorage.empty N).pushAll vs).length = N + k ∧
    (((QBufferStorage.empty N).pushAll vs).applyMoves ms).atConst 0 =
      vs.getLast? := by
  have hdata : ((QBufferStorage.empty N).pushAll vs).data = vs.drop k := by
    rw [QBufferStorage.pushAll_empty_data N hN vs, hlen]
    congr 1
    omega
  have hmdata := QBufferStorage.applyMoves_data
    ((QBufferStorage.empty N).pushAll vs) ms
  have hdlen : (vs.drop k).length = N := by
    rw [List.length_drop, hlen]
    omega
  refine ⟨hmdata.trans hdata, ?_, ?_, ?_⟩
  · rw [QBufferStorage.size, hdata, hdlen]
  · rw [QBufferStorage.length, QBufferStorage.pushAll_totalPushed, hlen]
    simp [QBufferStorage.empty]
  · unfold QBufferStorage.atConst
    rw [hmdata.trans hdata, hdlen]
    have hcond : (0 : ℤ) ≤ (N : ℤ) - 1 - 0 ∧ (N : ℤ) - 1 - 0 < (N : ℤ) := by
      constructor <;> omega
    rw [if_pos hcond]
    have htoNat : ((N : ℤ) - 1 - 0).toNat = N - 1 := by omega
    rw [htoNat, List.getD_eq_getElem?_getD, List.getElem?_drop,
      List.getLast?_eq_getElem?, hlen]
    have hidx : k + (N - 1) = N + k - 1 := by omega
    rw [hidx]
    have hlt : N + k - 1 < vs.length := by omega
    rw [List.getElem?_eq_getElem hlt]
    rfl

/-! ## EMA kernel lemmas -/

namespace simd

lemma emaGo_length (a prev : ℚ) (l : List ℚ) :
    (emaGo a prev l).length = l.length := by
  induction l generalizing prev with
  | nil => rfl
  | cons x rest ih => simpa [emaGo] using ih (a * x + (1 - a) * prev)

lemma emaGo_getElem_zero (a prev : ℚ) (l : List ℚ) :
    (emaGo a prev l)[0]? = (l[0]?).map (fun v => a * v + (1 - a) * prev) := by
  cases l with
  | nil => rfl
  | cons x rest => simp [emaGo]

lemma emaGo_getElem_succ (a prev y : ℚ) (l : List ℚ) (j : ℕ)
    (h : (emaGo a prev l)[j]? = some y) :
    (emaGo a prev l)[j + 1]? =
      (l[j + 1]?).map (fun v => a * v + (1 - a) * y) := by
  induction l generalizing prev j with
  | nil => simp [emaGo] at h
  | cons x rest ih =>
      simp only [emaGo] at h ⊢
      cases j with
      | zero =>
          have hy : a * x + (1 - a) * prev = y := by
            simpa using h
          simp only [List.getElem?_cons_succ]
          rw [emaGo_getElem_zero, hy]
      | succ j =>
          have h' : (emaGo a (a * x + (1 - a) * prev) rest)[j]? = some y := by
            simpa using h
          simpa using ih (a * x + (1 - a) * prev) j h'

end simd

/-- An in-range `getElem?` read produces the `getD` value. -/
lemma getElem?_eq_some_getD (l : List ℚ) (i : ℕ) (h : i < l.length) :
    l[i]? = some (l.getD i 0) := by
  rw [List.getD_eq_getElem?_getD, List.getElem?_eq_getElem h]
  rfl

/-! ## Claim C5: the vectorized EMA kernel -/

/-- Claim C5: For `1 ≤ period ≤ n`: the EMA kernel's output has length `n`,
is NaN at indices `0 .. period-2`, holds the SMA of the first `period`
inputs at index `period-1`, and for `period ≤ i < n` satisfies
`out[i] = alpha * x[i] + (1 - alpha) * out[i-1]` with
`alpha = 2 / (period + 1)`. -/
theorem ema_kernel_spec (data : List ℚ) (period : ℕ)
    (h1 : 1 ≤ period) (h2 : period ≤ data.length) :
    (simd.ema data period).length = data.length ∧
    (∀ i, i < period - 1 → (simd.ema data period)[i]? = some none) ∧
    (simd.ema data period)[period - 1]? =
      some (some ((data.take period).sum / (period : ℚ))) ∧
    (∀ i y, period ≤ i → i < data.length →
      (simd.ema data period)[i - 1]? = some (some y) →
      (simd.ema data period)[i]? =
        some (some ((2 / ((period : ℚ) + 1)) * data.getD i 0 +
          (1 - 2 / ((period : ℚ) + 1)) * y))) := by
  have hne : ¬(data.length = 0 ∨ period = 0) := by omega
  have hlt : ¬(data.length < period) := by omega
  have hform : simd.ema data period =
      List.replicate (period - 1) (none : Option ℚ) ++
        some ((data.take period).sum / (period : ℚ)) ::
          (simd.emaGo (2 / ((period : ℚ) + 1))
            ((data.take period).sum / (period : ℚ))
            (data.drop period)).map some := by
    unfold simd.ema
    rw [if_neg hne, if_neg hlt]
  have hreplen : (List.replicate (period - 1) (none : Option ℚ)).length =
      period - 1 := List.length_replicate _ _
  refine ⟨?_, ?_, ?_, ?_⟩
  · rw [hform]
    simp [simd.emaGo_length, List.length_drop]
    omega
  · intro i hi
    rw [hform, List.getElem?_append_left (by omega : i < (List.replicate
      (period - 1) (none : Option ℚ)).length)]
    simp [List.getElem?_replicate, hi]
  · rw [hform, List.getElem?_append_right (by omega : (List.replicate
      (period - 1) (none : Option ℚ)).length ≤ period - 1)]
    rw [hreplen, Nat.sub_self]
    simp
  · intro i y hpi hilen hprev
    rw [hform] at hprev ⊢
    rw [List.getElem?_append_right (by omega), hreplen] at hprev
    rw [List.getElem?_append_right (by omega), hreplen]
    have hdropi : (data.drop period)[i - period]? = some (data.getD i 0) := by
      rw [List.getElem?_drop]
      have : period + (i - period) = i := by omega
      rw [this]
      exact getElem?_eq_some_getD data i hilen
    rcases Nat.eq_or_lt_of_le hpi with heq | hgt
    · -- i = period: the predecessor cell is the SMA seed
      have hidx : i - 1 - (period - 1) = 0 := by omega
      rw [hidx, List.getElem?_cons_zero] at hprev
      have hy : ((data.take period).sum / (period : ℚ)) = y := by
        simpa using hprev
      have hdrop0 : (data.drop period)[0]? = some (data.getD i 0) := by
        rw [List.getElem?_drop]
        have hz : period + 0 = i := by omega
        rw [hz]
        exact getElem?_eq_some_getD data i hilen
      have hidx2 : i - (period - 1) = 1 := by omega
      rw [hidx2, List.getElem?_cons_succ, List.getElem?_map,
        simd.emaGo_getElem_zero, hy, hdrop0]
      simp
    · -- i > period: the predecessor cell lies in the recursive tail
      have hidx : i - 1 - (period - 1) = (i - 1 - period) + 1 := by omega
      rw [hidx, List.getElem?_cons_succ, List.getElem?_map] at hprev
      have hgo : (simd.emaGo (2 / ((period : ℚ) + 1))
          ((data.take period).sum / (period : ℚ))
          (data.drop period))[i - 1 - period]? = some y := by
        cases hcell : (simd.emaGo (2 / ((period : ℚ) + 1))
            ((data.take period).sum / (period : ℚ))
            (data.drop period))[i - 1 - period]? with
        | none => rw [hcell] at hprev; simp at hprev
        | some z =>
            rw [hcell] at hprev
            simp at hprev
            rw [hprev]
      have hstep := simd.emaGo_getElem_succ (2 / ((period : ℚ) + 1))
        ((data.take period).sum / (period : ℚ)) y (data.drop period)
        (i - 1 - period) hgo
      have hidx2 : i - (period - 1) = (i - 1 - period) + 1 + 1 := by omega
      have hidx3 : i - 1 - period + 1 = i - period := by omega
      rw [hidx2, List.getElem?_cons_succ, List.getElem?_map, hstep,
        hidx3, hdropi]
      simp

/-- Claim C5 witness: `data = [1, 2, 3]`, `period = 2`:
`alpha = 2/3`, output `[NaN, 3/2, 5/2]`, and
`5/2 = (2/3)·3 + (1/3)·(3/2)`. -/
theorem ema_kernel_spec_witness :
    (simd.ema [1, 2, 3] 2).length = 3 ∧
    (simd.ema [1, 2, 3] 2)[0]? = some none ∧
    (simd.ema [1, 2, 3] 2)[1]? = some (some (3 / 2)) ∧
    (simd.ema [1, 2, 3] 2)[2]? =
      some (some ((2 / ((2 : ℚ) + 1)) * 3 + (1 - 2 / ((2 : ℚ) + 1)) * (3 / 2))) := by
  obtain ⟨ha, hb, hc, hd⟩ := ema_kernel_spec [1, 2, 3] 2 (by norm_num)
    (by norm_num)
  have hsum : ((List.take 2 [1, 2, 3] : List ℚ)).sum / ((2 : ℕ) : ℚ) =
      3 / 2 := by decide
  have hprev : (simd.ema [1, 2, 3] 2)[2 - 1]? = some (some (3 / 2)) := by
    rw [hc, hsum]
  refine ⟨by simpa using ha, hb 0 (by norm_num), by simpa using hprev, ?_⟩
  have hlast := hd 2 (3 / 2) (by norm_num) (by norm_num) hprev
  simpa using hlast

/-! ## Claim C6: the RSI kernel -/

/-- Claim C6 counterexample: For `data = [1, 2, 4, 3]` and `period = 2`
the kernel smooths gains `[1, 2, 0]` and losses `[0, 0, 1]` with
`simd::ema` (`alpha = 2/3`), giving RSI `300/7 ≈ 42.86` at index 3; the
claim's Wilder smoothing (`alpha = 1/2`) would give 60. -/
theorem rsi_wilder_alpha_counterexample :
    (simd.rsi [1, 2, 4, 3] 2)[3]? = some (some (300 / 7)) ∧
    (simd.rsiClaim [1, 2, 4, 3] 2)[3]? = some (some 60) ∧
    (300 / 7 : ℚ) ≠ 60 := by
  refine ⟨by decide, by decide, by norm_num⟩

/-- Claim C6 amended: The RSI kernel computes one-step differences,
separates them into gains and losses, smooths each series with the
standard EMA kernel `simd::ema` (`alpha = 2/(period+1)` after an SMA
seed — not Wilder's `alpha = 1/period`), and for `period ≤ i < n`
outputs `100 - 100/(1 + gain/loss)` read from the smoothed series at
`i - 1`, with 100 when the smoothed loss is 0 and 0 when the smoothed
gain is 0; the first `period` outputs are NaN. -/
theorem rsi_kernel_spec (data : List ℚ) (period : ℕ)
    (h1 : 1 ≤ period) (h2 : 2 ≤ data.length) :
    (simd.rsi data period).length = data.length ∧
    (∀ i, i + 1 < data.length →
      (simd.changes data)[i]? =
        some (data.getD (i + 1) 0 - data.getD i 0)) ∧
    (∀ (i : ℕ) (c : ℚ), (simd.changes data)[i]? = some c →
      (simd.gains data)[i]? = some (if c > 0 then c else 0) ∧
      (simd.losses data)[i]? = some (if c < 0 then -c else 0)) ∧
    (∀ i, i < period → i < data.length →
      (simd.rsi data period)[i]? = some none) ∧
    (∀ i ag al, period ≤ i → i < data.length →
      (simd.ema (simd.gains data) period)[i - 1]? = some (some ag) →
      (simd.ema (simd.losses data) period)[i - 1]? = some (some al) →
      (simd.rsi data period)[i]? =
        some (some (if al = 0 then 100 else if ag = 0 then 0
          else 100 - 100 / (1 + ag / al)))) := by
  have hguard : ¬(data.length < 2 ∨ period = 0) := by omega
  have hform : simd.rsi data period =
      (List.range data.length).map (fun i =>
        if i < period then none
        else simd.rsiCell (simd.ema (simd.gains data) period)
          (simd.ema (simd.losses data) period) period i) := by
    unfold simd.rsi
    rw [if_neg hguard]
  refine ⟨?_, ?_, ?_, ?_, ?_⟩
  · rw [hform]
    simp
  · intro i hi
    unfold simd.changes
    rw [List.getElem?_zipWith]
    rw [List.getElem?_tail, getElem?_eq_some_getD data (i + 1) hi,
      getElem?_eq_some_getD data i (by omega)]
  · intro i c hc
    unfold simd.gains simd.losses
    rw [List.getElem?_map, hc, List.getElem?_map, hc]
    exact ⟨rfl, rfl⟩
  · intro i hip hilen
    rw [hform]
    simp [List.getElem?_map, List.getElem?_range, hilen, hip]
  · intro i ag al hip hilen hag hal
    rw [hform]
    simp only [List.getElem?_map, List.getElem?_range, hilen, if_true]
    have hnotlt : ¬ i < period := by omega
    simp only [Option.map_some']
    rw [if_neg hnotlt]
    unfold simd.rsiCell
    rw [if_neg (by omega : ¬ i - 1 < period - 1)]
    have hgety : (simd.ema (simd.gains data) period).getD (i - 1) none =
        some ag := by
      rw [List.getD_eq_getElem?_getD, hag]
      rfl
    have hgetl : (simd.ema (simd.losses data) period).getD (i - 1) none =
        some al := by
      rw [List.getD_eq_getElem?_getD, hal]
      rfl
    rw [hgety, hgetl]
    show some (if al = 0 then some (100 : ℚ) else if ag = 0 then some 0
      else some (100 - 100 / (1 + ag / al))) = _
    split_ifs <;> rfl

/-- Claim C6 witness: The amended characterization applied to
`data = [1, 2, 4, 3]`, `period = 2`: changes `[1, 2, -1]`, gains/losses
split, NaN at index 1, and the output 300/7 at index 3 obtained from
the EMA-smoothed gain 1/2 and loss 2/3. -/
theorem rsi_kernel_spec_witness :
    (simd.changes [1, 2, 4, 3])[2]? = some ((-1 : ℚ)) ∧
    (simd.gains [1, 2, 4, 3])[2]? = some ((0 : ℚ)) ∧
    (simd.losses [1, 2, 4, 3])[2]? = some ((1 : ℚ)) ∧
    (simd.rsi [1, 2, 4, 3] 2)[1]? = some none ∧
    (simd.rsi [1, 2, 4, 3] 2)[3]? = some (some (300 / 7)) := by
  obtain ⟨_, hch, hgl, hnan, hcell⟩ :=
    rsi_kernel_spec [1, 2, 4, 3] 2 (by norm_num) (by norm_num)
  have hc2 : (simd.changes [1, 2, 4, 3])[2]? = some ((-1 : ℚ)) := by
    have := hch 2 (by norm_num)
    norm_num at this
    exact this
  have hg2 := hgl 2 (-1) hc2
  have hcell3 := hcell 3 (1 / 2) (2 / 3) (by norm_num) (by norm_num)
    (by decide) (by decide)
  refine ⟨hc2, ?_, ?_, hnan 1 (by norm_num) (by norm_num), ?_⟩
  · have := hg2.1
    norm_num at this
    exact this
  · have := hg2.2
    norm_num at this
    exact this
  · rw [hcell3]
    norm_num

/-! ## Claims C7 and C8: position updates and trade P&L -/

/-- Claim C7 counterexample: A buy of 5 that exactly covers a short of 5
leaves the broker's position at size 0 but records the execution price
20 as the average price — the claim's "exactly closing sets both size
and average price to zero" fails (and `Position::update` on (5, 10)
with delta −8 at price 20 keeps the old average 10 instead of
resetting it to 20). -/
theorem position_close_counterexample :
    executeOrderPosition ⟨-5, 10⟩ true 5 20 = ⟨0, 20⟩ ∧ (20 : ℚ) ≠ 0 ∧
    Position.update ⟨5, 10⟩ (-8) 20 = ⟨-3, 10⟩ ∧ (10 : ℚ) ≠ 20 := by
  refine ⟨by decide, by norm_num, by decide, by norm_num⟩

/-- Claim C7 amended: Opening from flat or adding on the same side
recomputes the volume-weighted average price; an opposite-side
execution reduces the size and may flip its sign.  In the broker's
position table a buy that reaches or crosses zero records the new
execution price as the average (also on an exact close), while a sell
that exactly closes sets both size and price to zero and a crossing
sell resets the average to the execution price; in the standalone
`Position` class, crossing through zero keeps the previous average
price, and only a landing within `1e-10` of zero resets both size and
average price to zero. -/
theorem position_update_rules (pos : PositionInfo) (p : Position)
    (sz : ℕ) (price delta x : ℚ) :
    (pos.size = 0 → 0 < sz →
      executeOrderPosition pos true sz price = ⟨(sz : ℚ), price⟩ ∧
      executeOrderPosition pos false sz price = ⟨-(sz : ℚ), price⟩) ∧
    (0 < pos.size →
      executeOrderPosition pos true sz price =
        ⟨pos.size + (sz : ℚ),
          (pos.price * pos.size + price * (sz : ℚ)) / (pos.size + (sz : ℚ))⟩) ∧
    (pos.size < 0 →
      executeOrderPosition pos false sz price =
        ⟨pos.size - (sz : ℚ),
          (pos.price * |pos.size| + price * (sz : ℚ)) /
            (|pos.size| + (sz : ℚ))⟩) ∧
    (pos.size < 0 → 0 ≤ pos.size + (sz : ℚ) →
      executeOrderPosition pos true sz price = ⟨pos.size + (sz : ℚ), price⟩) ∧
    (pos.size < 0 → pos.size + (sz : ℚ) < 0 →
      executeOrderPosition pos true sz price =
        ⟨pos.size + (sz : ℚ), pos.price⟩) ∧
    (0 < pos.size → pos.size - (sz : ℚ) < 0 →
      executeOrderPosition pos false sz price = ⟨pos.size - (sz : ℚ), price⟩) ∧
    (0 < pos.size → pos.size - (sz : ℚ) = 0 →
      executeOrderPosition pos false sz price = ⟨0, 0⟩) ∧
    (0 < pos.size → 0 < pos.size - (sz : ℚ) →
      executeOrderPosition pos false sz price =
        ⟨pos.size - (sz : ℚ), pos.price⟩) ∧
    (p.size = 0 → p.update delta x = ⟨delta, x⟩) ∧
    ((p.size > 0 ∧ delta > 0) ∨ (p.size < 0 ∧ delta < 0) →
      p.update delta x =
        ⟨p.size + delta, (p.size * p.price + delta * x) / (p.size + delta)⟩) ∧
    (p.size ≠ 0 → ¬((p.size > 0 ∧ delta > 0) ∨ (p.size < 0 ∧ delta < 0)) →
      (|p.size + delta| < 1 / 10000000000 → p.update delta x = ⟨0, 0⟩) ∧
      (1 / 10000000000 ≤ |p.size + delta| →
        p.update delta x = ⟨p.size + delta, p.price⟩)) := by
  refine ⟨fun h hsz => ?_, fun h => ?_, fun h => ?_, fun h h2 => ?_,
    fun h h2 => ?_, fun h h2 => ?_, fun h h2 => ?_, fun h h2 => ?_,
    fun h => ?_, fun h => ?_, fun h h2 => ?_⟩
  · have hszq : (0 : ℚ) < (sz : ℚ) := by exact_mod_cast hsz
    have hs0 : (sz : ℚ) ≠ 0 := ne_of_gt hszq
    constructor
    · simp only [executeOrderPosition, eq_self_iff_true, if_true]
      rw [if_pos (le_of_eq h.symm), h,
        if_pos (by linarith : (0 : ℚ) + (sz : ℚ) > 0)]
      simp only [PositionInfo.mk.injEq]
      refine ⟨by ring, ?_⟩
      rw [mul_zero, zero_add, zero_add]
      field_simp
    · simp only [executeOrderPosition, Bool.false_eq_true, if_false]
      rw [if_pos (le_of_eq h), h,
        if_pos (by linarith : (0 : ℚ) - (sz : ℚ) < 0)]
      simp only [PositionInfo.mk.injEq]
      refine ⟨by ring, ?_⟩
      rw [abs_zero, mul_zero, zero_add,
        abs_of_nonpos (by linarith : (0 : ℚ) - (sz : ℚ) ≤ 0)]
      rw [show -((0 : ℚ) - (sz : ℚ)) = (sz : ℚ) by ring]
      field_simp
  · simp only [executeOrderPosition, eq_self_iff_true, if_true]
    rw [if_pos (le_of_lt h)]
    have hszq : (0 : ℚ) ≤ (sz : ℚ) := by positivity
    rw [if_pos (by linarith)]
  · simp only [executeOrderPosition, Bool.false_eq_true, if_false]
    rw [if_pos (le_of_lt h)]
    have hszq : (0 : ℚ) ≤ (sz : ℚ) := by positivity
    rw [if_pos (by linarith)]
    have habs : |pos.size - (sz : ℚ)| = |pos.size| + (sz : ℚ) := by
      rw [abs_of_neg (by linarith), abs_of_neg h]
      ring
    rw [habs]
  · simp only [executeOrderPosition, eq_self_iff_true, if_true]
    rw [if_neg (not_le.mpr h), if_pos h2]
  · simp only [executeOrderPosition, eq_self_iff_true, if_true]
    rw [if_neg (not_le.mpr h), if_neg (not_le.mpr h2)]
  · simp only [executeOrderPosition, Bool.false_eq_true, if_false]
    rw [if_neg (not_le.mpr h), if_pos (le_of_lt h2), if_pos h2]
  · simp only [executeOrderPosition, Bool.false_eq_true, if_false]
    rw [if_neg (not_le.mpr h), if_pos (le_of_eq h2), if_neg (not_lt.mpr (le_of_eq h2.symm))]
    simp [h2]
  · simp only [executeOrderPosition, Bool.false_eq_true, if_false]
    rw [if_neg (not_le.mpr h), if_neg (not_le.mpr h2)]
  · unfold Position.update
    rw [if_pos h]
  · unfold Position.update
    have hne : ¬ p.size = 0 := by
      rcases h with ⟨h1, _⟩ | ⟨h1, _⟩
      · exact ne_of_gt h1
      · exact ne_of_lt h1
    rw [if_neg hne, if_pos h]
  · unfold Position.update
    rw [if_neg h, if_neg h2]
    exact ⟨fun hsmall => by rw [if_pos hsmall],
      fun hbig => by rw [if_neg (not_lt.mpr hbig)]⟩

/-- Claim C7 witness: The amended rules applied concretely: opening long
5 at 20 from flat; adding 5 at 30 to a long 5 at 10 (VWAP 20); a buy of
5 exactly covering a short of 5 at 20; a sell of 8 crossing a long 5 at
price 20; `Position::update` from flat and on a crossing reduction. -/
theorem position_update_rules_witness :
    executeOrderPosition ⟨0, 0⟩ true 5 20 = ⟨5, 20⟩ ∧
    executeOrderPosition ⟨5, 10⟩ true 5 30 = ⟨10, (10 * 5 + 30 * 5) / 10⟩ ∧
    executeOrderPosition ⟨-5, 10⟩ true 5 20 = ⟨0, 20⟩ ∧
    executeOrderPosition ⟨5, 10⟩ false 8 20 = ⟨-3, 20⟩ ∧
    Position.update ⟨0, 0⟩ 7 15 = ⟨7, 15⟩ ∧
    Position.update ⟨5, 10⟩ (-8) 20 = ⟨-3, 10⟩ := by
  have h1 := (position_update_rules ⟨0, 0⟩ ⟨0, 0⟩ 5 20 0 0).1 rfl (by norm_num)
  have h2 := (position_update_rules ⟨5, 10⟩ ⟨0, 0⟩ 5 30 0 0).2.1 (by norm_num)
  have h3 := (position_update_rules ⟨-5, 10⟩ ⟨0, 0⟩ 5 20 0 0).2.2.2.1
    (by norm_num) (by norm_num)
  have h4 := (position_update_rules ⟨5, 10⟩ ⟨0, 0⟩ 8 20 0 0).2.2.2.2.2.1
    (by norm_num) (by norm_num)
  have h5 := (position_update_rules ⟨0, 0⟩ ⟨0, 0⟩ 0 0 7 15).2.2.2.2.2.2.2.2.1 rfl
  have h6 := ((position_update_rules ⟨0, 0⟩ ⟨5, 10⟩ 0 0 (-8) 20
    ).2.2.2.2.2.2.2.2.2.2 (by norm_num) (by norm_num)).2 (by norm_num)
  refine ⟨?_, ?_, ?_, ?_, ?_, ?_⟩
  · simpa using h1.1
  · simpa using h2
  · simpa using h3
  · simpa using h4
  · simpa using h5
  · simpa using h6

/-- Claim C8 code bug: Round trip from flat: buy 10 at 100 (position
becomes 10 @ 100), then sell 10 at 110 with commission 1 on the closing
fill.  `Broker::executeOrder` computes the closing trade's P&L from the
*post-update* position price (already reset to 0), recording
`pnl = (110 - 0)·10 = 1100` instead of `(110 - 100)·10 = 100`;
`Trade::close` on the same round trip yields the claimed 100 and
`pnlComm = pnl - commission_total` exactly. -/
theorem trade_close_pnl_code_bug :
    executeOrderPosition ⟨0, 0⟩ true 10 100 = ⟨10, 100⟩ ∧
    executeOrderClosePnl ⟨10, 100⟩ false 10 110 1 = some (1100, 1099) ∧
    (TradeRec.close ⟨100, 0, 10, 0, 0, 0, true, true⟩ 110 1).pnl = 100 ∧
    (TradeRec.close ⟨100, 0, 10, 0, 0, 0, true, true⟩ 110 1).pnlComm =
      100 - 1 ∧
    (1100 : ℚ) ≠ 100 := by
  refine ⟨by decide, by decide, by decide, by decide, by norm_num⟩

/-! ## Optimization-grid lemmas (claim C9)

The grid's `generate()` walks a mixed-radix odometer; we show the state
after `m` steps is the big-endian digit vector of `m`, and that the
enumeration equals the Cartesian product of the value lists. -/

lemma decodeLE_length (n : ℕ) (ss : List ℕ) :
    (decodeLE n ss).length = ss.length := by
  induction ss generalizing n with
  | nil => rfl
  | cons s ss ih => simp [decodeLE, ih]

lemma decodeLE_zero (ss : List ℕ) :
    decodeLE 0 ss = List.replicate ss.length 0 := by
  induction ss with
  | nil => rfl
  | cons s ss ih => simp [decodeLE, ih, List.replicate_succ]

/-- One odometer step from the digit vector of `n` reaches the digit
vector of `n + 1` (wrapping at the total, exactly as the digits do). -/
lemma incLE_decodeLE (ss : List ℕ) (hpos : ∀ s ∈ ss, 1 ≤ s) (n : ℕ) :
    incLE (decodeLE n ss) ss = decodeLE (n + 1) ss := by
  induction ss generalizing n with
  | nil => rfl
  | cons s ss ih =>
      have hs0 : 0 < s := hpos s (List.mem_cons_self s ss)
      simp only [decodeLE, incLE]
      by_cases hd : n % s + 1 < s
      · rw [if_pos hd]
        have h1 : (n + 1) % s = n % s + 1 := by
          conv_lhs => rw [← Nat.div_add_mod n s]
          rw [Nat.add_assoc, Nat.mul_add_mod]
          exact Nat.mod_eq_of_lt hd
        have h2 : (n + 1) / s = n / s := by
          conv_lhs => rw [← Nat.div_add_mod n s]
          rw [Nat.add_assoc, Nat.mul_add_div hs0, Nat.div_eq_of_lt hd]
          omega
        rw [h1, h2]
      · rw [if_neg hd]
        have hms : n % s + 1 = s := by
          have := Nat.mod_lt n hs0
          omega
        have h1 : (n + 1) % s = 0 := by
          conv_lhs => rw [← Nat.div_add_mod n s]
          rw [Nat.add_assoc, hms, ← Nat.mul_succ, Nat.mul_mod_right]
        have h2 : (n + 1) / s = n / s + 1 := by
          conv_lhs => rw [← Nat.div_add_mod n s]
          rw [Nat.add_assoc, hms, ← Nat.mul_succ]
          exact Nat.mul_div_cancel_left _ hs0
        rw [h1, h2, ih (fun t ht => hpos t (List.mem_cons_of_mem s ht)) (n / s)]

lemma odoInc_digitsAt (S : List ℕ) (hpos : ∀ s ∈ S, 1 ≤ s) (m : ℕ) :
    odoInc (digitsAt S m) S = digitsAt S (m + 1) := by
  unfold odoInc digitsAt
  rw [List.reverse_reverse,
    incLE_decodeLE S.reverse (fun s hs => hpos s (List.mem_reverse.mp hs)) m]

lemma genGo_length (g : ParamGrid) (n : ℕ) (idx : List ℕ) :
    (genGo g n idx).length = n := by
  induction n generalizing idx with
  | zero => rfl
  | succ n ih => simp [genGo, ih]

/-- The `generate` loop starting at the digit vector of `i` emits the
combinations of `i, i+1, …, i+n-1`. -/
lemma genGo_eq_map (g : ParamGrid) (hpos : ∀ s ∈ gridSizes g, 1 ≤ s) :
    ∀ (n i : ℕ), genGo g n (digitsAt (gridSizes g) i) =
      (List.range' i n).map (fun m => combAt g (digitsAt (gridSizes g) m)) := by
  intro n
  induction n with
  | zero => intro i; rfl
  | succ n ih =>
      intro i
      simp only [genGo]
      rw [odoInc_digitsAt (gridSizes g) hpos i, ih (i + 1)]
      rfl

lemma decodeLE_append_single (m : ℕ) (A : List ℕ) (k : ℕ) :
    decodeLE m (A ++ [k]) = decodeLE m A ++ [(m / A.prod) % k] := by
  induction A generalizing m with
  | nil => simp [decodeLE]
  | cons s A ih =>
      simp only [List.cons_append, decodeLE, List.prod_cons, List.append_eq]
      rw [ih (m / s), Nat.div_div_eq_div_mul]

lemma decodeLE_mod_prod (n : ℕ) (A : List ℕ) :
    decodeLE n A = decodeLE (n % A.prod) A := by
  induction A generalizing n with
  | nil => rfl
  | cons s A ih =>
      simp only [decodeLE, List.prod_cons]
      congr 1
      · exact (Nat.mod_mod_of_dvd n (dvd_mul_right s A.prod)).symm
      · rw [Nat.mod_mul_right_div_self]
        exact ih (n / s)

lemma digitsAt_cons (k : ℕ) (S : List ℕ) (m : ℕ) :
    digitsAt (k :: S) m =
      ((m / S.prod) % k) :: digitsAt S (m % S.prod) := by
  unfold digitsAt
  have h1 : (k :: S).reverse = S.reverse ++ [k] := by simp
  rw [h1, decodeLE_append_single m S.reverse k, List.reverse_append,
    List.prod_reverse, decodeLE_mod_prod m S.reverse, List.prod_reverse]
  rfl

lemma flatMap_congr_left {α β : Type} (l : List α) (f g : α → List β)
    (h : ∀ a ∈ l, f a = g a) : l.flatMap f = l.flatMap g := by
  induction l with
  | nil => rfl
  | cons x xs ih =>
      rw [List.flatMap_cons, List.flatMap_cons,
        h x (List.mem_cons_self x xs),
        ih (fun a ha => h a (List.mem_cons_of_mem x ha))]

lemma map_getD_range (vs : List ParamValue) :
    (List.range vs.length).map (fun j => vs.getD j ParamValue.pNull) = vs := by
  apply List.ext_getElem (by simp)
  intro i h1 h2
  simp [List.getD_eq_getElem?_getD, List.getElem?_eq_getElem h2]

lemma flatMap_eq_range_flatMap (vs : List ParamValue)
    (f : ParamValue → List (List (String × ParamValue))) :
    vs.flatMap f = (List.range vs.length).flatMap
      (fun j => f (vs.getD j ParamValue.pNull)) := by
  conv_lhs => rw [← map_getD_range vs]
  rw [List.flatMap_map]

lemma range_mul_flatMap (k P : ℕ) :
    List.range (k * P) = (List.range k).flatMap
      (fun j => (List.range P).map (fun r => j * P + r)) := by
  induction k with
  | zero => simp
  | succ k ih =>
      rw [Nat.succ_mul, List.range_add, ih, List.range_succ,
        List.flatMap_append]
      simp

/-- The Cartesian product of the value lists is exactly the mixed-radix
enumeration of all `totalCombinations` index vectors. -/
lemma cartesian_eq_map (g : ParamGrid) :
    cartesian g = (List.range (totalCombinations g)).map
      (fun m => combAt g (digitsAt (gridSizes g) m)) := by
  induction g with
  | nil =>
      simp [cartesian, totalCombinations, gridSizes, combAt, digitsAt,
        decodeLE, List.range_succ]
  | cons nv rest ih =>
      obtain ⟨nm, vs⟩ := nv
      have htot : totalCombinations ((nm, vs) :: rest) =
          vs.length * totalCombinations rest := by
        simp [totalCombinations, gridSizes]
      have hsizes : gridSizes ((nm, vs) :: rest) =
          vs.length :: gridSizes rest := rfl
      have hsrest : (gridSizes rest).prod = totalCombinations rest := rfl
      simp only [cartesian]
      rw [flatMap_eq_range_flatMap, htot, range_mul_flatMap,
        List.map_flatMap]
      apply flatMap_congr_left
      intro j hj
      have hjk : j < vs.length := List.mem_range.mp hj
      rw [ih, List.map_map, List.map_map]
      apply List.map_eq_map_iff.mpr
      intro r hr
      have hrP : r < totalCombinations rest := List.mem_range.mp hr
      have hP0 : 0 < totalCombinations rest := by omega
      simp only [Function.comp_apply]
      rw [hsizes, digitsAt_cons, hsrest]
      have hdiv : (j * totalCombinations rest + r) /
          totalCombinations rest = j := by
        rw [Nat.mul_comm j (totalCombinations rest),
          Nat.mul_add_div hP0, Nat.div_eq_of_lt hrP]
        omega
      have hmod : (j * totalCombinations rest + r) %
          totalCombinations rest = r := by
        rw [Nat.mul_comm j (totalCombinations rest), Nat.mul_add_mod]
        exact Nat.mod_eq_of_lt hrP
      rw [hdiv, hmod, Nat.mod_eq_of_lt hjk]
      rfl

/-- For a non-empty grid, the odometer enumeration of
`ParameterGrid::generate` is exactly the Cartesian product of the value
lists (rightmost parameter fastest). -/
lemma generate_eq_cartesian (g : ParamGrid) (hne : g ≠ []) :
    ParamGrid.generate g = cartesian g := by
  unfold ParamGrid.generate
  rw [if_neg (by simpa [List.isEmpty_iff] using hne)]
  have hzero : List.replicate g.length 0 = digitsAt (gridSizes g) 0 := by
    unfold digitsAt
    rw [decodeLE_zero]
    simp [gridSizes]
  rw [hzero]
  by_cases hpos : ∀ s ∈ gridSizes g, 1 ≤ s
  · rw [genGo_eq_map g hpos (totalCombinations g) 0, cartesian_eq_map,
      List.range_eq_range']
  · have h0 : totalCombinations g = 0 := by
      push_neg at hpos
      obtain ⟨s, hs, hs0⟩ := hpos
      have hz : s = 0 := by omega
      exact List.prod_eq_zero (hz ▸ hs)
    rw [h0, cartesian_eq_map, h0]
    rfl

/-! ## Claim C9: optimization-run results -/

/-- Claim C9: For every non-empty parameter grid, `generate()` produces
exactly one parameter assignment per element of the Cartesian product
of the value lists — `∏ k_j` in total — and the optimization-result
list is a permutation of one run result per assignment, of length
`∏ k_j`, sorted in descending order of percent P&L. -/
theorem optimize_grid_results (g : ParamGrid)
    (run : List (String × ParamValue) → OptResult) (hne : g ≠ []) :
    ParamGrid.generate g = cartesian g ∧
    (ParamGrid.generate g).length = totalCombinations g ∧
    (runOptimize g run).length = totalCombinations g ∧
    (runOptimize g run).Perm ((cartesian g).map run) ∧
    (runOptimize g run).Sorted byPnlPctDesc := by
  have hgen := generate_eq_cartesian g hne
  have hlen : (ParamGrid.generate g).length = totalCombinations g := by
    unfold ParamGrid.generate
    rw [if_neg (by simpa [List.isEmpty_iff] using hne)]
    exact genGo_length g (totalCombinations g) _
  have hperm : (runOptimize g run).Perm
      ((ParamGrid.generate g).map run) :=
    List.perm_insertionSort byPnlPctDesc _
  refine ⟨hgen, hlen, ?_, ?_, List.sorted_insertionSort byPnlPctDesc _⟩
  · rw [hperm.length_eq, List.length_map, hlen]
  · rw [← hgen]
    exact hperm

/-- Claim C9 witness: The S5 grid `fast = [5,10,15], slow = [20,30]`:
`generate` equals the Cartesian product, the (sorted) result list has
`3 · 2 = 6` entries and is sorted descending by percent P&L. -/
theorem optimize_grid_results_witness :
    ParamGrid.generate
      [("fast", [ParamValue.pInt 5, ParamValue.pInt 10, ParamValue.pInt 15]),
       ("slow", [ParamValue.pInt 20, ParamValue.pInt 30])] =
      cartesian
      [("fast", [ParamValue.pInt 5, ParamValue.pInt 10, ParamValue.pInt 15]),
       ("slow", [ParamValue.pInt 20, ParamValue.pInt 30])] ∧
    (runOptimize
      [("fast", [ParamValue.pInt 5, ParamValue.pInt 10, ParamValue.pInt 15]),
       ("slow", [ParamValue.pInt 20, ParamValue.pInt 30])]
      (fun a => ⟨a, 0, 0, 0, none, none, 0, 0, 0⟩)).length = 6 ∧
    (runOptimize
      [("fast", [ParamValue.pInt 5, ParamValue.pInt 10, ParamValue.pInt 15]),
       ("slow", [ParamValue.pInt 20, ParamValue.pInt 30])]
      (fun a => ⟨a, 0, 0, 0, none, none, 0, 0, 0⟩)).Sorted byPnlPctDesc := by
  have h := optimize_grid_results
    [("fast", [ParamValue.pInt 5, ParamValue.pInt 10, ParamValue.pInt 15]),
     ("slow", [ParamValue.pInt 20, ParamValue.pInt 30])]
    (fun a => ⟨a, 0, 0, 0, none, none, 0, 0, 0⟩)
    (List.cons_ne_nil _ _)
  exact ⟨h.1, h.2.2.1.trans (by rfl), h.2.2.2.2⟩

/-! ## Claim C10: defaulted parameter reads swallow type mismatches -/

/-- Claim C10: `Params::get(name, defaultValue)` returns the default when
the key is absent *and* when the key holds a value of a different
stored alternative than requested (the mismatch exception is caught and
swallowed); when the key holds the requested alternative the stored
value is returned; the defaultless `Params::get(name)` fails on a
missing key. -/
theorem params_get_default_swallows (ps : ParamStore) (name : String)
    (t : ParamTag) (d v : ParamValue) :
    (List.lookup name ps = none → ps.getWithDefault name t d = d) ∧
    (List.lookup name ps = some v → v.tag ≠ t →
      ps.getWithDefault name t d = d) ∧
    (List.lookup name ps = some v → v.tag = t →
      ps.getWithDefault name t d = v) ∧
    (List.lookup name ps = none →
      ps.getNoDefault name t =
        Except.error ("Parameter not found: " ++ name)) := by
  unfold ParamStore.getWithDefault ParamStore.getNoDefault
  refine ⟨fun h => by rw [h], fun h hne => ?_, fun h he => ?_, fun h => by rw [h]⟩
  · rw [h]
    exact if_neg hne
  · rw [h]
    exact if_pos he

/-- Claim C10 witness: In the store `("period", int 14)`: requesting
`period` as a double with default `2.5` yields `2.5` (type mismatch
swallowed); requesting it as an int yields `14`; requesting the absent
key `stake` with default `int 1` yields the default, and without a
default it fails. -/
theorem params_get_default_swallows_witness :
    ParamStore.getWithDefault [("period", ParamValue.pInt 14)] "period"
      ParamTag.tDouble (ParamValue.pDouble 2.5) = ParamValue.pDouble 2.5 ∧
    ParamStore.getWithDefault [("period", ParamValue.pInt 14)] "period"
      ParamTag.tInt (ParamValue.pInt 1) = ParamValue.pInt 14 ∧
    ParamStore.getWithDefault [("period", ParamValue.pInt 14)] "stake"
      ParamTag.tInt (ParamValue.pInt 1) = ParamValue.pInt 1 ∧
    ParamStore.getNoDefault [("period", ParamValue.pInt 14)] "stake"
      ParamTag.tInt = Except.error "Parameter not found: stake" := by
  have h := params_get_default_swallows [("period", ParamValue.pInt 14)]
  refine ⟨h "period" ParamTag.tDouble (ParamValue.pDouble 2.5)
      (ParamValue.pInt 14) |>.2.1 (by decide) (by decide),
    h "period" ParamTag.tInt (ParamValue.pInt 1)
      (ParamValue.pInt 14) |>.2.2.1 (by decide) (by decide),
    h "stake" ParamTag.tInt (ParamValue.pInt 1)
      (ParamValue.pInt 14) |>.1 (by decide),
    h "stake" ParamTag.tInt (ParamValue.pInt 1)
      (ParamValue.pInt 14) |>.2.2.2 (by decide)⟩

/-! ## Claim C1: SMA event-driven vs. bulk parity on the S1 series -/

/-- Claim C1 counterexample: On the S1 close series with period 5, both
execution modes produce 112.5 = 225/2 at index 19 (the mean of the last
window 110, 112, 113.5, 114, 113), not 111.6 = 558/5 as claimed. -/
theorem sma_s1_index19_counterexample :
    (SMA.onceSeq SMA.s1Close 5).getD 19 none = some (225 / 2) ∧
    SMA.nextOutput SMA.s1Close 5 19 = Except.ok (225 / 2) ∧
    (225 / 2 : ℚ) ≠ 558 / 5 := by
  refine ⟨by decide, by decide, by norm_num⟩

/-- Claim C1 amended: On the S1 close series with period 5, the
event-driven `next()` call on each warm-up bar (cursor index below 4)
throws `std::out_of_range` — it does not produce a NaN output — while
the bulk `once(0, 20)` temporary buffer holds NaN at exactly those four
cells; bar by bar, the outcome of `next()` (with a throw corresponding
to a NaN cell) equals the bulk buffer, so on every bar from index 4 on
`next()` succeeds with the bulk value and the two modes store identical
output lines; the output at index 4 is 101.4 and the output at
index 19 is 112.5. -/
theorem sma_next_once_parity_s1 :
    (∀ p : ℕ, p < 4 → SMA.nextOutput SMA.s1Close 5 (p : ℤ) =
      Except.error "LineBuffer index out of range") ∧
    (List.range 20).map
      (fun p => (SMA.nextOutput SMA.s1Close 5 (p : ℤ)).toOption) =
      SMA.onceSeq SMA.s1Close 5 ∧
    (SMA.onceSeq SMA.s1Close 5).take 4 = List.replicate 4 none ∧
    SMA.nextLine SMA.s1Close 5 = SMA.onceLine SMA.s1Close 5 ∧
    (SMA.onceSeq SMA.s1Close 5).getD 4 none = some (507 / 5) ∧
    (SMA.onceSeq SMA.s1Close 5).getD 19 none = some (225 / 2) := by
  refine ⟨by decide, by decide, by decide, by decide, by decide, by decide⟩

/-- Claim C1 witness: The amended theorem applied concretely: the
`next()` call on bar 2 throws `std::out_of_range`, and the stored
output lines of the two modes coincide. -/
theorem sma_next_once_parity_s1_witness :
    SMA.nextOutput SMA.s1Close 5 2 =
      Except.error "LineBuffer index out of range" ∧
    SMA.nextLine SMA.s1Close 5 = SMA.onceLine SMA.s1Close 5 :=
  ⟨sma_next_once_parity_s1.1 2 (by norm_num),
    sma_next_once_parity_s1.2.2.2.1⟩

/-! ## Claim C2: limit-order matching and slippage -/

/-- Claim C2: A buy limit order executes iff `low ≤ limit`, at
`min(open, limit)` before slippage; a sell limit order executes iff
`high ≥ limit`, at `max(open, limit)`; slippage then adds
`perc · price` (or, when `perc = 0`, the fixed amount) for buys and
subtracts it for sells. -/
theorem limit_order_matching (limit : ℚ) (bar : Bar)
    (slip : SlippageConfig) :
    ((tryExecuteLimit true limit bar slip).isSome ↔ bar.low ≤ limit) ∧
    (bar.low ≤ limit →
      tryExecuteLimit true limit bar slip =
        some (applySlippage (min bar.open_ limit) true slip)) ∧
    ((tryExecuteLimit false limit bar slip).isSome ↔ bar.high ≥ limit) ∧
    (bar.high ≥ limit →
      tryExecuteLimit false limit bar slip =
        some (applySlippage (max bar.open_ limit) false slip)) ∧
    (∀ price : ℚ,
      applySlippage price true slip =
        price + (if slip.perc > 0 then price * slip.perc
          else if slip.fixed > 0 then slip.fixed else 0) ∧
      applySlippage price false slip =
        price - (if slip.perc > 0 then price * slip.perc
          else if slip.fixed > 0 then slip.fixed else 0)) := by
  have hmin : (if bar.open_ < limit then bar.open_ else limit) =
      min bar.open_ limit := by
    rcases lt_trichotomy bar.open_ limit with h | h | h
    · rw [if_pos h, min_eq_left h.le]
    · rw [h]
      simp
    · rw [if_neg (not_lt.mpr h.le), min_eq_right h.le]
  have hmax : (if bar.open_ > limit then bar.open_ else limit) =
      max bar.open_ limit := by
    rcases lt_trichotomy limit bar.open_ with h | h | h
    · rw [if_pos h, max_eq_left h.le]
    · rw [h]
      simp
    · rw [if_neg (not_lt.mpr h.le), max_eq_right h.le]
  refine ⟨?_, ?_, ?_, ?_, fun price => ⟨rfl, rfl⟩⟩
  · unfold tryExecuteLimit
    split
    · simp_all
    · simp_all
  · intro h
    unfold tryExecuteLimit
    rw [if_pos rfl] at *
    rw [if_pos h, hmin]
  · unfold tryExecuteLimit
    split
    · simp_all
    · simp_all
  · intro h
    unfold tryExecuteLimit
    rw [if_neg Bool.false_ne_true, if_pos h, hmax]

/-- Claim C2 witness: Bar (open 10, high 12, low 9, close 11), limit 9.5,
fixed slippage 0.1: the buy limit executes at
`min(10, 9.5) + 0.1 = 9.6`. -/
theorem limit_order_matching_witness :
    ((9 : ℚ) ≤ 9.5) ∧
    tryExecuteLimit true 9.5 ⟨10, 12, 9, 11, 100⟩ ⟨0, 1 / 10⟩ =
      some (applySlippage (min (10 : ℚ) 9.5) true ⟨0, 1 / 10⟩) :=
  ⟨by norm_num,
    (limit_order_matching 9.5 ⟨10, 12, 9, 11, 100⟩ ⟨0, 1 / 10⟩).2.1
      (by norm_num)⟩

/-- Claim C4 witness: Capacity 2, four pushes `[10, 20, 30, 40]`, then an
`advance`/`home` cursor excursion: the buffer keeps `[30, 40]`, reports
`size = 2` and `length = 4`, and offset 0 reads 40. -/
theorem qbuffer_bounded_retention_witness :
    (((QBufferStorage.empty 2).pushAll [10, 20, 30, 40]).applyMoves
      [CursorMove.adv, CursorMove.home]).data = [30, 40] ∧
    ((QBufferStorage.empty 2).pushAll [10, 20, 30, 40]).size = 2 ∧
    ((QBufferStorage.empty 2).pushAll [10, 20, 30, 40]).length = 2 + 2 ∧
    (((QBufferStorage.empty 2).pushAll [10, 20, 30, 40]).applyMoves
      [CursorMove.adv, CursorMove.home]).atConst 0 =
      ([10, 20, 30, 40] : List ℚ).getLast? := by
  have h := qbuffer_bounded_retention 2 2 [10, 20, 30, 40]
    [CursorMove.adv, CursorMove.home] (by decide) (by decide)
  exact ⟨h.1, h.2.1, h.2.2.1, h.2.2.2⟩

end BTPlus
